import Mathlib

/-!
Verification of the separable-cost grid kernel-apply component of the `ott`
repository.  The repository excerpt contains only the grid-geometry tutorial
notebook (`docs/tutorials/geometry/100_grid.ipynb`) and a CI workflow; the
implementation module `ott.geometry.grid` itself is not part of the excerpt.
Following the specification, the component below is therefore modelled from
the spec (sections 3, 4.1, 7, 8), with the regular-coordinate construction
additionally following the point-cloud reconstruction cell of the notebook
(the `jnp.maximum(1, grid_size[k] - 1)` guard).

The model is exact (rational or real scalars instead of floating point), so
the spec's "within numerical tolerance" equivalences are settled as exact
equalities.
-/

namespace SepGrid

/-- Modelled from the spec: the checked failure cases of the grid component
(spec section 7); the implementation file of the grid geometry is missing
from the excerpt. -/
inductive GridError : Type
  | configurationError : GridError
  | shapeMismatchError : GridError
deriving DecidableEq

/-- Decidable equality of fallible results, so that concrete runs of the
fallible operations can be compared by evaluation. -/
instance instDecEqExcept {ε σ : Type} [DecidableEq ε] [DecidableEq σ] :
    DecidableEq (Except ε σ) := fun a b =>
  match a, b with
  | .ok x, .ok y =>
      if h : x = y then .isTrue (by rw [h]) else
        .isFalse (fun hc => h (Except.ok.inj hc))
  | .ok _, .error _ => .isFalse (fun hc => Except.noConfusion hc)
  | .error _, .ok _ => .isFalse (fun hc => Except.noConfusion hc)
  | .error e, .error f =>
      if h : e = f then .isTrue (by rw [h]) else
        .isFalse (fun hc => h (Except.error.inj hc))

/-- Modelled from the spec: per-axis cost functions as a closed variant type
(spec section 9), squared Euclidean by default or a custom pure scalar-pair
function. -/
inductive CostFn (α : Type) : Type
  | sqEuclidean : CostFn α
  | custom (f : α → α → α) : CostFn α

/-- Evaluation of a per-axis cost function on two scalar coordinates. -/
def CostFn.eval {α : Type} [Ring α] : CostFn α → α → α → α
  | .sqEuclidean => fun a b => (a - b) ^ 2
  | .custom f => f

/-- Multi-index addressing one point of a `d`-dimensional grid: one per-axis
index `i k < n k` for every axis `k` (spec section 3). -/
abbrev Idx {d : ℕ} (n : Fin d → ℕ) : Type := ∀ k : Fin d, Fin (n k)

section TensorCore

variable {α : Type} [CommRing α] {d : ℕ} {n : Fin d → ℕ}

/-- Entry of the identity matrix on one axis, used to express Kronecker-padded
per-axis matrices. -/
def delta {m : ℕ} (a b : Fin m) : α := if a = b then 1 else 0

/-- Modelled from the spec: the single-axis contraction of section 4.1 — the
`d`-dimensional tensor form of the weight vector is contracted along axis `k`
against a dense `n k × n k` matrix, and the vector is left unmodified along
every other axis (the shallow form of the `tensordot` step). -/
def contractAxis (k : Fin d) (M : Fin (n k) → Fin (n k) → α) (v : Idx n → α) :
    Idx n → α :=
  fun i => ∑ j : Fin (n k), M (i k) j * v (Function.update i k j)

/-- Modelled from the spec: the loop of section 4.1 composing single-axis
contractions, one per axis of the given list. -/
def applyAxes (Ms : ∀ k : Fin d, Fin (n k) → Fin (n k) → α) :
    List (Fin d) → (Idx n → α) → Idx n → α
  | [], v => v
  | k :: L, v => contractAxis k (Ms k) (applyAxes Ms L v)

/-- Dense application, over multi-indices, of the matrix whose entries factor
as a product of per-axis entries (the Kronecker product of the per-axis
matrices). -/
def kronApply (Ms : ∀ k : Fin d, Fin (n k) → Fin (n k) → α) (v : Idx n → α) :
    Idx n → α :=
  fun i => ∑ j : Idx n, (∏ k, Ms k (i k) (j k)) * v j

/-- Naive dense application of an arbitrary `N × N` matrix indexed by
multi-indices: `result i = ∑ j, C i j * v j`. -/
def denseApply (C : Idx n → Idx n → α) (v : Idx n → α) : Idx n → α :=
  fun i => ∑ j : Idx n, C i j * v j

end TensorCore


/-- Modelled from the spec: the grid data model of section 3 — `dim` axes,
axis `k` holding `size k` real coordinates, and one per-axis cost function
per axis.  The implementation module `ott.geometry.grid` is not in the
excerpt, so the record follows the spec's data model directly. -/
structure Grid (α : Type) : Type where
  dim : ℕ
  size : Fin dim → ℕ
  coord : ∀ k : Fin dim, Fin (size k) → α
  costFn : Fin dim → CostFn α

namespace Grid

variable {α : Type}

/-- Multi-index type of a grid: one per-axis index per axis. -/
abbrev Index (g : Grid α) : Type := Idx g.size

/-- Total number of grid points `N = ∏ k, n k` (spec section 3). -/
def N (g : Grid α) : ℕ := ∏ k, g.size k

/-- Modelled from the spec: `cost_matrix_per_axis` of section 4.1 — the dense
`n k × n k` matrix of the axis cost function over all ordered coordinate
pairs of axis `k`. -/
def costMat [Ring α] (g : Grid α) (k : Fin g.dim) :
    Fin (g.size k) → Fin (g.size k) → α :=
  fun a b => (g.costFn k).eval (g.coord k a) (g.coord k b)

/-- Modelled from the spec: the separable total cost of section 3,
`cost(x, y) = ∑ k, cost_k (x_k, y_k)`, as a dense matrix over multi-indices.
This is the ground-truth pairwise cost matrix of the `N` grid points (the
matrix a point-cloud oracle over the same points would materialize). -/
def fullCost [Ring α] (g : Grid α) : g.Index → g.Index → α :=
  fun i j => ∑ k, g.costMat k (i k) (j k)

/-- Modelled from the spec: the Kronecker-structured expansion of the
per-axis cost matrices of section 4.3 (`full_cost_matrix`), summing, per
axis, the Kronecker product of that axis's cost matrix with identity
matrices on every other axis. -/
def kronSumCost [CommRing α] (g : Grid α) : g.Index → g.Index → α :=
  fun i j => ∑ k, ∏ l,
    (if l = k then g.costMat l (i l) (j l) else delta (i l) (j l))

/-- Modelled from the spec: `apply_cost` with the identity transform
(section 4.1) — the loop accumulating, per axis, the single-axis contraction
of the weight tensor with that axis's cost matrix, the vector being left
unmodified along the other axes. -/
def applyCostT [CommRing α] (g : Grid α) (v : g.Index → α) : g.Index → α :=
  (List.finRange g.dim).foldl
    (fun acc k => acc + contractAxis k (g.costMat k) v) 0

/-- Modelled from the spec: the per-axis kernel sub-matrix
`exp (-cost_k / ε)` used by the kernel application (section 4.1). -/
noncomputable def kernelMat (g : Grid ℝ) (ε : ℝ) (k : Fin g.dim) :
    Fin (g.size k) → Fin (g.size k) → ℝ :=
  fun a b => Real.exp (-(g.costMat k a b) / ε)

/-- Modelled from the spec: the elementwise-exponentiated ground-truth cost
matrix `exp (-cost / ε)` (the kernel of the regularized-OT use, section 4.1). -/
noncomputable def fullKernel (g : Grid ℝ) (ε : ℝ) : g.Index → g.Index → ℝ :=
  fun i j => Real.exp (-(g.fullCost i j) / ε)

/-- Modelled from the spec: `apply_cost` with the exponential transform
(kernel apply, section 4.1) — the loop contracting the weight tensor, axis
after axis, with the per-axis kernel sub-matrices. -/
noncomputable def applyKernelT (g : Grid ℝ) (ε : ℝ) (v : g.Index → ℝ) :
    g.Index → ℝ :=
  applyAxes (g.kernelMat ε) (List.finRange g.dim) v

/-- Linear (row-major consistent) indexing of the grid points: the mixed-radix
bijection between multi-indices and `Fin N` (spec section 3). -/
def encode (g : Grid α) : g.Index ≃ Fin g.N := finPiFinEquiv

/-- Tensor form of a flat length-`N` weight vector (the reshape step of
section 4.1). -/
def reshape (g : Grid α) (v : List α) (h : v.length = g.N) : g.Index → α :=
  fun j => v.get (Fin.cast h.symm (g.encode j))

/-- Modelled from the spec: the flat `apply_cost` entry point — a length-`N`
weight vector is reshaped to tensor form, the per-axis contractions are
accumulated, and the result is unravelled back to a flat vector; a weight
vector whose length differs from `N` fails with `ShapeMismatchError`
(spec sections 4.1 and 7). -/
def applyCost [CommRing α] (g : Grid α) (v : List α) :
    Except GridError (List α) :=
  if h : v.length = g.N then
    .ok (List.ofFn fun p : Fin g.N => g.applyCostT (g.reshape v h) (g.encode.symm p))
  else
    .error .shapeMismatchError

/-- Naive materialized application: the ground-truth dense cost matrix of all
`N` points evaluated on the flat weight vector (the quadratic-cost reference
of spec section 8). -/
def naiveApplyCost [CommRing α] (g : Grid α) (v : List α) :
    Except GridError (List α) :=
  if h : v.length = g.N then
    .ok (List.ofFn fun p : Fin g.N =>
      denseApply g.fullCost (g.reshape v h) (g.encode.symm p))
  else
    .error .shapeMismatchError

/-- Modelled from the spec: broadcast of the optional cost-function list
(section 4.1) — one function per axis is used as given, no function defaults
to squared Euclidean everywhere, and a shorter list reuses the single
supplied function for all axes. -/
def resolveCostFns (d : ℕ) (fns : List (CostFn α)) : List (CostFn α) :=
  if fns.length = d then fns
  else
    match fns with
    | [] => List.replicate d CostFn.sqEuclidean
    | f :: _ => List.replicate d f

/-- Modelled from the spec: the construction contract of section 4.1 from
explicit per-axis coordinate lists — eager validation failing with
`ConfigurationError` when zero axes are given, when some axis has fewer than
one point, or when more cost functions than axes are supplied. -/
def make (x : List (List α)) (fns : List (CostFn α)) :
    Except GridError (Grid α) :=
  if x.length = 0 then .error .configurationError
  else if ∃ a ∈ x, a.length = 0 then .error .configurationError
  else if x.length < fns.length then .error .configurationError
  else
    .ok
      { dim := x.length
        size := fun k => (x.get k).length
        coord := fun k j => (x.get k).get j
        costFn := fun k => (resolveCostFns x.length fns).getD k.val CostFn.sqEuclidean }

/-- Regular coordinates for a shape tuple, following the notebook's
reconstruction cell: axis of `m` points gets `j / max 1 (m - 1)` for
`j ∈ [0, m)`, the `max` guarding the denominator for single-point axes. -/
def regularAxes [DivisionRing α] (shape : List ℕ) : List (List α) :=
  shape.map fun m =>
    (List.range m).map fun j => (Nat.cast j : α) / (Nat.cast (max 1 (m - 1)) : α)

/-- Modelled from the spec: construction from a shape tuple alone (section
4.1 case (b)) — a regular grid whose axis `k` spans `[0, 1]` with
`shape k` equally spaced points. -/
def fromShape [DivisionRing α] (shape : List ℕ) (fns : List (CostFn α)) :
    Except GridError (Grid α) :=
  make (regularAxes shape) fns

/-- Modelled from the spec: batched single-axis contraction (section 4.1) —
the weight argument carries an extra leading batch dimension through the
contraction step. -/
def contractAxisB [CommRing α] {d : ℕ} {n : Fin d → ℕ} {B : ℕ} (k : Fin d)
    (M : Fin (n k) → Fin (n k) → α) (w : Fin B → Idx n → α) :
    Fin B → Idx n → α :=
  fun b i => ∑ j : Fin (n k), M (i k) j * w b (Function.update i k j)

/-- Modelled from the spec: batched `apply_cost` with the identity transform —
the same accumulation loop as `applyCostT`, carrying the batch dimension
through every step. -/
def applyCostBT [CommRing α] (g : Grid α) {B : ℕ}
    (w : Fin B → g.Index → α) : Fin B → g.Index → α :=
  (List.finRange g.dim).foldl
    (fun acc k => acc + contractAxisB k (g.costMat k) w) 0

/-- Multiplications performed when contracting axis `k`: one per summand of
`contractAxis`, i.e. `size k` multiplications for each of the `N` output
entries (spec section 4.1, complexity of one 1-D contraction). -/
def contractAxisOps (g : Grid α) (k : Fin g.dim) : ℕ := g.N * g.size k

/-- Total multiplications of the factored `apply_cost`: the per-axis
contraction counts summed over the `d` axes. -/
def applyCostOps (g : Grid α) : ℕ := ∑ k, g.contractAxisOps k

end Grid

/-- Concrete 2 × 2 grid with coordinates `{0, 1}` on both axes and the default
squared-Euclidean per-axis cost, used for concrete evaluations. -/
def gC1 : Grid ℤ where
  dim := 2
  size := fun _ => 2
  coord := fun _ j => (j.val : ℤ)
  costFn := fun _ => CostFn.sqEuclidean

/-- Indicator weight tensor of the grid point `(1, 1)` of `gC1`. -/
def vC1 : gC1.Index → ℤ := fun j => if ∀ k, (j k).val = 1 then 1 else 0

/-- A flat weight vector of length `N = 4` for `gC1` (a basis vector). -/
def vC1flat : List ℤ := [0, 0, 0, 1]

/-- Concrete degenerate real grid with two axes of one point each (a single
grid point), used for concrete kernel evaluations: all coordinates are `0`,
so every per-axis cost vanishes and every kernel entry is `exp 0 = 1`. -/
def gK : Grid ℝ where
  dim := 2
  size := fun _ => 1
  coord := fun _ _ => 0
  costFn := fun _ => CostFn.sqEuclidean

/-- The constant weight tensor `2` on `gK`. -/
def vK : gK.Index → ℝ := fun _ => 2

/-- The unique multi-index of `gK`. -/
def iK : gK.Index := fun _ => ⟨0, Nat.one_pos⟩

/-- The grid produced by `fromShape [3, 1]` with default cost functions,
written out as the literal record `Grid.make` constructs. -/
def g31 : Grid ℚ where
  dim := (Grid.regularAxes (α := ℚ) [3, 1]).length
  size := fun k => ((Grid.regularAxes (α := ℚ) [3, 1]).get k).length
  coord := fun k j => ((Grid.regularAxes (α := ℚ) [3, 1]).get k).get j
  costFn := fun k =>
    (Grid.resolveCostFns (Grid.regularAxes (α := ℚ) [3, 1]).length []).getD
      k.val CostFn.sqEuclidean

/-- The second axis of `g31` (the axis of one point). -/
def k31 : Fin g31.dim := ⟨1, by decide⟩

/-- The unique index on the single-point axis of `g31`. -/
def j31 : Fin (g31.size k31) := ⟨0, by decide⟩

/-- The `(5, 6, 7)` grid of the notebook (coordinates are irrelevant to the
operation counts). -/
def g567 : Grid ℤ where
  dim := 3
  size := ![5, 6, 7]
  coord := fun _ j => (j.val : ℤ)
  costFn := fun _ => CostFn.sqEuclidean

/-- The `(37, 29, 43)` grid of the notebook. -/
def gBig : Grid ℤ where
  dim := 3
  size := ![37, 29, 43]
  coord := fun _ j => (j.val : ℤ)
  costFn := fun _ => CostFn.sqEuclidean

/-- A balanced grid (`3` points on each of `2` axes) for the balanced-axes
complexity instance. -/
def gBal : Grid ℤ where
  dim := 2
  size := fun _ => 3
  coord := fun _ j => (j.val : ℤ)
  costFn := fun _ => CostFn.sqEuclidean

section TensorLemmas

variable {α : Type} [CommRing α] {d : ℕ} {n : Fin d → ℕ}

lemma prod_delta_eq (i j : Idx n) :
    (∏ k, (delta (i k) (j k) : α)) = if i = j then 1 else 0 := by
  by_cases h : i = j
  · subst h
    simp [delta]
  · rw [if_neg h]
    obtain ⟨k, hk⟩ := Function.ne_iff.mp h
    exact Finset.prod_eq_zero (Finset.mem_univ k) (by simp [delta, hk])

/-- Composing single-axis contractions along a duplicate-free list `L` of axes
equals one dense multi-index application whose matrix entries factor, per
axis, into the contracted matrix (axes in `L`) or the identity (axes not in
`L`). -/
lemma applyAxes_nodup (Ms : ∀ k : Fin d, Fin (n k) → Fin (n k) → α)
    (L : List (Fin d)) (hL : L.Nodup) (v : Idx n → α) :
    applyAxes Ms L v = fun i => ∑ j : Idx n,
      (∏ k, if k ∈ L then Ms k (i k) (j k) else delta (i k) (j k)) * v j := by
  induction L generalizing v with
  | nil =>
    funext i
    simp only [applyAxes, List.not_mem_nil, if_false]
    rw [Finset.sum_congr rfl fun j _ => by rw [prod_delta_eq]]
    simp [Finset.sum_ite_eq]
  | cons k L ih =>
    obtain ⟨hk, hL⟩ := List.nodup_cons.mp hL
    funext i
    show contractAxis k (Ms k) (applyAxes Ms L v) i = _
    rw [ih hL]
    unfold contractAxis
    have hinner : ∀ jk : Fin (n k),
        Ms k (i k) jk * ∑ j : Idx n,
          (∏ l, if l ∈ L then Ms l (Function.update i k jk l) (j l)
            else delta (Function.update i k jk l) (j l)) * v j
        = ∑ j : Idx n, (if jk = j k then
            Ms k (i k) jk *
            ((∏ l ∈ Finset.univ.erase k,
              if l ∈ L then Ms l (i l) (j l) else delta (i l) (j l)) * v j)
          else 0) := by
      intro jk
      rw [Finset.mul_sum]
      refine Finset.sum_congr rfl fun j _ => ?_
      have hsplit :
          (∏ l, if l ∈ L then Ms l (Function.update i k jk l) (j l)
            else delta (Function.update i k jk l) (j l))
          = (delta jk (j k) : α) *
            ∏ l ∈ Finset.univ.erase k,
              (if l ∈ L then Ms l (i l) (j l) else delta (i l) (j l)) := by
        rw [← Finset.mul_prod_erase Finset.univ _ (Finset.mem_univ k)]
        congr 1
        · rw [if_neg hk, Function.update_same]
        · refine Finset.prod_congr rfl fun l hl => ?_
          have hlk : l ≠ k := (Finset.mem_erase.mp hl).1
          rw [Function.update_noteq hlk]
      rw [hsplit, delta]
      by_cases hjk : jk = j k
      · rw [if_pos hjk, if_pos hjk]
        ring
      · rw [if_neg hjk, if_neg hjk]
        ring
    rw [Finset.sum_congr rfl fun jk _ => hinner jk, Finset.sum_comm]
    refine Finset.sum_congr rfl fun j _ => ?_
    rw [Finset.sum_ite_eq' Finset.univ (j k)]
    simp only [Finset.mem_univ, if_true]
    rw [← Finset.mul_prod_erase Finset.univ
      (fun l => if l ∈ k :: L then Ms l (i l) (j l) else delta (i l) (j l))
      (Finset.mem_univ k)]
    rw [if_pos (List.mem_cons_self k L), mul_assoc]
    congr 2
    refine Finset.prod_congr rfl fun l hl => ?_
    have hlk : l ≠ k := (Finset.mem_erase.mp hl).1
    congr 1
    simp [List.mem_cons, hlk]

/-- Composing the contractions over all `d` axes yields the dense application
of the full Kronecker-product matrix. -/
lemma applyAxes_finRange (Ms : ∀ k : Fin d, Fin (n k) → Fin (n k) → α)
    (v : Idx n → α) :
    applyAxes Ms (List.finRange d) v = kronApply Ms v := by
  rw [applyAxes_nodup Ms (List.finRange d) (List.nodup_finRange d) v]
  funext i
  refine Finset.sum_congr rfl fun j _ => ?_
  congr 1
  exact Finset.prod_congr rfl fun k _ => by rw [if_pos (List.mem_finRange k)]

/-- The composed contraction depends only on the set of contracted axes, not
on the order in which they are listed. -/
lemma applyAxes_perm (Ms : ∀ k : Fin d, Fin (n k) → Fin (n k) → α)
    {L₁ L₂ : List (Fin d)} (hperm : L₁.Perm L₂) (h₁ : L₁.Nodup)
    (v : Idx n → α) :
    applyAxes Ms L₁ v = applyAxes Ms L₂ v := by
  rw [applyAxes_nodup Ms L₁ h₁ v,
    applyAxes_nodup Ms L₂ (hperm.nodup_iff.mp h₁) v]
  funext i
  refine Finset.sum_congr rfl fun j _ => ?_
  congr 1
  refine Finset.prod_congr rfl fun k _ => ?_
  congr 1
  simp [hperm.mem_iff]

end TensorLemmas

section BridgeLemmas

variable {α : Type} [CommRing α]

lemma foldl_add_eq {M ι : Type} [AddCommMonoid M] (f : ι → M) (L : List ι)
    (acc : M) : L.foldl (fun a k => a + f k) acc = acc + (L.map f).sum := by
  induction L generalizing acc with
  | nil => simp
  | cons k L ih => simp [ih, add_assoc]

/-- The accumulation loop of `applyCostT` computes the sum, over the axes, of
the single-axis contractions. -/
lemma applyCostT_eq_sum (g : Grid α) (v : g.Index → α) :
    g.applyCostT v = ∑ k, contractAxis k (g.costMat k) v := by
  unfold Grid.applyCostT
  rw [foldl_add_eq, zero_add, Fin.sum_univ_def]

/-- Multiplicative separability of the kernel: the elementwise exponential of
the separable cost factors into the product of the per-axis kernel entries,
because `exp` turns the sum over axes into a product. -/
lemma fullKernel_eq_prod (g : Grid ℝ) (ε : ℝ) (i j : g.Index) :
    g.fullKernel ε i j = ∏ k, g.kernelMat ε k (i k) (j k) := by
  unfold Grid.fullKernel Grid.kernelMat Grid.fullCost
  rw [← Real.exp_sum]
  congr 1
  rw [neg_div, Finset.sum_div, ← Finset.sum_neg_distrib]
  exact Finset.sum_congr rfl fun k _ => (neg_div ε (g.costMat k (i k) (j k))).symm

/-- The dense application of the exponentiated full cost matrix coincides with
the Kronecker-product application of the per-axis kernel matrices. -/
lemma denseApply_fullKernel (g : Grid ℝ) (ε : ℝ) (v : g.Index → ℝ) :
    denseApply (g.fullKernel ε) v = kronApply (g.kernelMat ε) v := by
  funext i
  exact Finset.sum_congr rfl fun j _ => by rw [fullKernel_eq_prod]

/-- One single-axis contraction, viewed as a dense application of the
identity-padded Kronecker matrix of that axis. -/
lemma contractAxis_costMat_eq (g : Grid α) (k : Fin g.dim) (v : g.Index → α) :
    contractAxis k (g.costMat k) v = fun i => ∑ j : g.Index,
      (∏ l, if l = k then g.costMat l (i l) (j l) else delta (i l) (j l)) * v j := by
  have h := applyAxes_nodup g.costMat [k] (List.nodup_singleton k) v
  simpa [applyAxes, List.mem_singleton] using h

/-- The sum of the per-axis contractions is the dense application of the
Kronecker-sum expansion of the per-axis cost matrices. -/
lemma sum_contract_eq_dense (g : Grid α) (v : g.Index → α) :
    ∑ k, contractAxis k (g.costMat k) v = denseApply g.kronSumCost v := by
  funext i
  rw [Finset.sum_apply]
  have h : ∀ k : Fin g.dim, contractAxis k (g.costMat k) v i = ∑ j : g.Index,
      (∏ l, if l = k then g.costMat l (i l) (j l) else delta (i l) (j l)) * v j :=
    fun k => congrFun (contractAxis_costMat_eq g k v) i
  rw [Finset.sum_congr rfl fun k _ => h k, Finset.sum_comm]
  unfold denseApply Grid.kronSumCost
  exact Finset.sum_congr rfl fun j _ => (Finset.sum_mul _ _ _).symm

/-- Each batch slice of the batched accumulation loop is the scalar loop on
that slice. -/
lemma applyCostBT_apply (g : Grid α) {B : ℕ} (w : Fin B → g.Index → α)
    (b : Fin B) : g.applyCostBT w b = g.applyCostT (w b) := by
  have hslice : ∀ L : List (Fin g.dim),
      ((L.map fun k => Grid.contractAxisB k (g.costMat k) w).sum) b
        = (L.map fun k => contractAxis k (g.costMat k) (w b)).sum := by
    intro L
    induction L with
    | nil => rfl
    | cons k L ih =>
      simp only [List.map_cons, List.sum_cons, Pi.add_apply]
      rw [ih]
      rfl
  unfold Grid.applyCostBT Grid.applyCostT
  rw [foldl_add_eq, foldl_add_eq]
  simp only [Pi.add_apply, Pi.zero_apply, zero_add]
  exact hslice (List.finRange g.dim)

end BridgeLemmas

/-- The number of grid points reachable by multi-indices is `N`. -/
lemma card_index {α : Type} (g : Grid α) : Fintype.card g.Index = g.N := by
  rw [Fintype.card_pi]
  simp only [Fintype.card_fin]
  rfl

lemma gK_costMat (k : Fin gK.dim) (a b : Fin (gK.size k)) :
    gK.costMat k a b = 0 := by
  simp [Grid.costMat, gK, CostFn.eval]

/-- On the all-zero grid `gK` every kernel entry is `exp 0 = 1`. -/
lemma gK_kernelMat (k : Fin gK.dim) (a b : Fin (gK.size k)) :
    gK.kernelMat 1 k a b = 1 := by
  rw [Grid.kernelMat, gK_costMat]
  norm_num [Real.exp_zero]

lemma gK_unique_fin (k : Fin gK.dim) :
    ∀ a : Fin (gK.size k), a = ⟨0, Nat.one_pos⟩ := by
  intro a
  have h1 : gK.size k = 1 := rfl
  have h2 : a.val < gK.size k := a.isLt
  exact Fin.ext (by omega)

lemma gK_uniq_index : ∀ i : gK.Index, i = iK := by
  intro i
  funext k
  exact gK_unique_fin k (i k)

/-- Each single-axis kernel contraction on `gK` evaluates to `2` on the
constant weight tensor `2`. -/
lemma gK_contract (k : Fin gK.dim) (i : gK.Index) :
    contractAxis k (gK.kernelMat 1 k) vK i = 2 := by
  unfold contractAxis
  haveI : Unique (Fin (gK.size k)) := ⟨⟨⟨0, Nat.one_pos⟩⟩, gK_unique_fin k⟩
  rw [Finset.univ_unique, Finset.sum_singleton, gK_kernelMat]
  simp [vK]

lemma gK_kron (i : gK.Index) : kronApply (gK.kernelMat 1) vK i = 2 := by
  unfold kronApply
  haveI : Unique gK.Index := ⟨⟨iK⟩, gK_uniq_index⟩
  rw [Finset.univ_unique, Finset.sum_singleton]
  rw [Finset.prod_congr rfl fun k _ => gK_kernelMat k _ _]
  simp [vK]

/-- The composed (kernel) application on `gK` evaluates to `2` everywhere. -/
lemma gK_applyKernel (i : gK.Index) : gK.applyKernelT 1 vK i = 2 := by
  rw [Grid.applyKernelT, applyAxes_finRange]
  exact gK_kron i

/-- The sum of the two single-axis kernel contractions on `gK` evaluates to
`4`. -/
lemma gK_sumContract : (∑ k, contractAxis k (gK.kernelMat 1 k) vK) iK = 4 := by
  rw [Finset.sum_apply]
  rw [Finset.sum_congr rfl fun k _ => gK_contract k iK]
  simp only [Finset.sum_const, Finset.card_univ, Fintype.card_fin, nsmul_eq_mul]
  norm_num [gK]

/-- The elementwise product of the two single-axis kernel contraction results
on `gK` evaluates to `4`. -/
lemma gK_prodContract : (∏ k, contractAxis k (gK.kernelMat 1 k) vK iK) = 4 := by
  rw [Finset.prod_congr rfl fun k _ => gK_contract k iK]
  simp only [Finset.prod_const, Finset.card_univ, Fintype.card_fin]
  norm_num [gK]

/-- Claim C1, counterexample: on the 2 × 2 grid `gC1` with coordinates
`{0, 1}` and squared-Euclidean per-axis costs, `apply_cost` with the identity
transform applied to the basis weight vector `[0, 0, 0, 1]` does NOT equal
the dense ground-truth cost matrix (`full_cost_matrix`, the separable
pairwise cost of all `N` points) multiplied by that vector — the identity
half of the claimed equivalence fails, because summing single-axis
contractions that leave the other axes unmodified applies the Kronecker-sum
matrix, not the separable cost matrix. -/
theorem claim_C1_counterexample :
    gC1.applyCost vC1flat ≠ gC1.naiveApplyCost vC1flat := by decide

/-- Claim C1 (amended): for every grid and weight vector, `apply_cost` with
the exponential transform equals the elementwise-exponentiated ground-truth
dense cost matrix multiplied by the vector (exactly, hence within any
numerical tolerance, for every grid size); `apply_cost` with the identity
transform equals the dense matrix obtained as the Kronecker-sum expansion of
the per-axis cost matrices (identity padding on the other axes) multiplied by
the vector — but not the ground-truth separable cost matrix. -/
theorem claim_C1_amended :
    (∀ (g : Grid ℝ) (ε : ℝ) (v : g.Index → ℝ),
        g.applyKernelT ε v = denseApply (g.fullKernel ε) v) ∧
    (∀ {α : Type} [CommRing α] (g : Grid α) (v : g.Index → α),
        g.applyCostT v = denseApply g.kronSumCost v) := by
  constructor
  · intro g ε v
    rw [Grid.applyKernelT, applyAxes_finRange, denseApply_fullKernel]
  · intro α _ g v
    rw [applyCostT_eq_sum, sum_contract_eq_dense]

/-- Claim C2: for every grid and weight vector, `apply_cost` with the
identity transform equals the sum over the `d` axes of the single-axis
contractions (each contracting one axis with its cost sub-matrix while
leaving the vector unmodified along the other axes), and on the concrete
grid `gC1` this sum differs from the elementwise product of the same `d`
contraction results. -/
theorem claim_C2 :
    (∀ {α : Type} [CommRing α] (g : Grid α) (v : g.Index → α),
        g.applyCostT v = ∑ k, contractAxis k (g.costMat k) v) ∧
    (∑ k, contractAxis k (gC1.costMat k) vC1) ≠
      (fun i => ∏ k, contractAxis k (gC1.costMat k) vC1 i) := by
  constructor
  · intro α _ g v
    exact applyCostT_eq_sum g v
  · decide

/-- Claim C3, counterexample: on the single-point real grid `gK` (all
coordinates `0`, so every kernel entry is `exp 0 = 1`) with `ε = 1` and the
constant weight tensor `2`, the kernel `apply_cost` evaluates to `2` while
the elementwise product of the `d = 2` single-axis kernel contraction
results evaluates to `2 · 2 = 4`: the kernel application is NOT the
elementwise product of the per-axis contraction results. -/
theorem claim_C3_counterexample :
    gK.applyKernelT 1 vK ≠
      fun i => ∏ k, contractAxis k (gK.kernelMat 1 k) vK i := by
  intro h
  have h2 := congrFun h iK
  rw [gK_applyKernel iK, gK_prodContract] at h2
  norm_num at h2

/-- Claim C3 (amended): for every grid, every `ε` and every weight vector,
`apply_cost` with the exponential transform `exp (-cost / ε)` — the
composition (iterated application) of the `d` single-axis kernel
contractions, one per axis — equals the dense application of the
elementwise-exponentiated separable cost matrix, because
`exp (∑ k, c k) = ∏ k, exp (c k)` makes the kernel multiplicatively
separable; and it is not the sum of the `d` single-axis contraction results
(on the concrete grid `gK` the composition gives `2` while the sum gives
`4`). -/
theorem claim_C3_amended :
    (∀ (g : Grid ℝ) (ε : ℝ) (v : g.Index → ℝ),
        g.applyKernelT ε v = denseApply (g.fullKernel ε) v) ∧
    gK.applyKernelT 1 vK ≠ ∑ k, contractAxis k (gK.kernelMat 1 k) vK := by
  constructor
  · intro g ε v
    rw [Grid.applyKernelT, applyAxes_finRange, denseApply_fullKernel]
  · intro h
    have h2 := congrFun h iK
    rw [gK_applyKernel iK, gK_sumContract] at h2
    norm_num at h2

/-- Claim C4: for every grid, any per-axis matrices, any weight vector and
any permutation of the axes, composing the per-axis contractions in that
order yields the same result as composing them in the canonical order — the
per-axis contraction operators commute, so the factored application is
order-invariant in which axis is contracted first. -/
theorem claim_C4 :
    ∀ {α : Type} [CommRing α] (g : Grid α)
      (Ms : ∀ k : Fin g.dim, Fin (g.size k) → Fin (g.size k) → α)
      (L : List (Fin g.dim)), L.Perm (List.finRange g.dim) →
      ∀ v : g.Index → α,
      applyAxes Ms L v = applyAxes Ms (List.finRange g.dim) v := by
  intro α _ g Ms L h v
  exact applyAxes_perm Ms h (h.nodup_iff.mpr (List.nodup_finRange _)) v

/-- Claim C4, witness: on the concrete grid `gC1` (two axes), contracting
axis `1` before axis `0` agrees with the canonical order. -/
theorem claim_C4_witness :
    ([⟨1, by decide⟩, ⟨0, by decide⟩] : List (Fin gC1.dim)).Perm
        (List.finRange gC1.dim) ∧
      applyAxes gC1.costMat [⟨1, by decide⟩, ⟨0, by decide⟩] vC1 =
        applyAxes gC1.costMat (List.finRange gC1.dim) vC1 :=
  ⟨by decide, claim_C4 gC1 gC1.costMat _ (by decide) vC1⟩

/-- Claim C5: construction fails with `ConfigurationError` exactly when zero
axes are given, some axis has fewer than one point, or more cost functions
than axes are supplied (and succeeds otherwise); in particular three axes
with four supplied cost functions fail with `ConfigurationError`, while
exactly one cost function per axis succeeds. -/
theorem claim_C5 :
    (∀ (x : List (List ℚ)) (fns : List (CostFn ℚ)),
        (Grid.make x fns = Except.error GridError.configurationError ↔
          x.length = 0 ∨ (∃ a ∈ x, a.length = 0) ∨ x.length < fns.length) ∧
        ((Grid.make x fns).isOk = true ↔
          ¬(x.length = 0 ∨ (∃ a ∈ x, a.length = 0) ∨ x.length < fns.length))) ∧
    Grid.make ([[0], [0], [0]] : List (List ℚ))
        (List.replicate 4 CostFn.sqEuclidean)
      = Except.error GridError.configurationError ∧
    (Grid.make ([[0], [0], [0]] : List (List ℚ))
        (List.replicate 3 CostFn.sqEuclidean)).isOk = true := by
  refine ⟨fun x fns => ?_, rfl, rfl⟩
  unfold Grid.make
  split_ifs with h1 h2 h3 <;> simp_all [Except.isOk, Except.toBool]

/-- Claim C6: for every well-constructed grid, the flat `apply_cost` fails
with `ShapeMismatchError` exactly on weight vectors whose length differs
from `N`, and succeeds exactly on weight vectors of length `N`. -/
theorem claim_C6 :
    ∀ (g : Grid ℝ) (v : List ℝ),
      (g.applyCost v = Except.error GridError.shapeMismatchError ↔
        v.length ≠ g.N) ∧
      ((g.applyCost v).isOk = true ↔ v.length = g.N) := by
  intro g v
  unfold Grid.applyCost
  split_ifs with h <;> simp_all [Except.isOk, Except.toBool]

/-- Claim C7: when a grid is constructed from a shape tuple alone, axis `k`
receives exactly the coordinates `j / (n k - 1)` for `j ∈ [0, n k)`; in this
exact model the quotient is interpreted with the division-by-zero-equals-zero
convention, under which the single-point case `n k = 1` (left undefined by
the real-number formula) also yields the implementation's guarded value `0`. -/
theorem claim_C7 :
    ∀ (shape : List ℕ) (fns : List (CostFn ℚ)) (g : Grid ℚ),
      Grid.fromShape shape fns = Except.ok g →
      ∀ (k : Fin g.dim) (j : Fin (g.size k)),
        g.coord k j = (j.val : ℚ) / ((shape.getD k.val 0 - 1 : ℕ) : ℚ) := by
  intro shape fns g hg k j
  unfold Grid.fromShape Grid.make at hg
  split_ifs at hg with h1 h2 h3
  rw [Except.ok.injEq] at hg
  subst hg
  have hk : (k : ℕ) < shape.length := by
    have h : (k : ℕ) < (Grid.regularAxes (α := ℚ) shape).length := k.isLt
    simp only [Grid.regularAxes, List.length_map] at h
    exact h
  have hsize : ((Grid.regularAxes (α := ℚ) shape).get k).length
      = shape.get ⟨k.val, hk⟩ := by
    simp only [Grid.regularAxes, List.get_eq_getElem, List.getElem_map,
      List.length_map, List.length_range]
  have hm1 : 1 ≤ shape.get ⟨k.val, hk⟩ := by
    by_contra hc
    refine h2 ⟨(Grid.regularAxes (α := ℚ) shape).get k, ?_, ?_⟩
    · exact List.get_mem _ _ _
    · omega
  have hj : (j : ℕ) < shape.get ⟨k.val, hk⟩ := by
    have h : (j : ℕ) < ((Grid.regularAxes (α := ℚ) shape).get k).length := j.isLt
    omega
  show ((Grid.regularAxes (α := ℚ) shape).get k).get j = _
  simp only [Grid.regularAxes, List.get_eq_getElem, List.getElem_map,
    List.getElem_range]
  rw [List.getD_eq_getElem shape 0 hk]
  rcases Nat.lt_or_ge (shape.get ⟨k.val, hk⟩) 2 with hlt | hge
  · have hm : shape[(k : ℕ)] = 1 := by
      simp only [List.get_eq_getElem] at hlt hm1
      omega
    have hj0 : (j : ℕ) = 0 := by
      simp only [List.get_eq_getElem] at hj
      omega
    rw [hm, hj0]
    norm_num
  · have hmax : max 1 (shape[(k : ℕ)] - 1) = shape[(k : ℕ)] - 1 := by
      simp only [List.get_eq_getElem] at hge
      omega
    rw [hmax]

/-- Claim C7, witness: the grid built from the shape `[3, 1]` exists (its
record is `g31`), and its second axis — the single-point one — carries the
coordinate given by the formula. -/
theorem claim_C7_witness :
    Grid.fromShape (α := ℚ) [3, 1] [] = Except.ok g31 ∧
      g31.coord k31 j31
        = (j31.val : ℚ) / ((([3, 1] : List ℕ).getD k31.val 0 - 1 : ℕ) : ℚ) :=
  ⟨rfl, claim_C7 [3, 1] [] g31 rfl k31 j31⟩

/-- Claim C8: for every grid and every batch of `B` weight tensors sharing
that grid, the batched `apply_cost` yields, on each of the `B` slices
independently, exactly the result of applying `apply_cost` to that single
tensor alone. -/
theorem claim_C8 :
    ∀ {α : Type} [CommRing α] (g : Grid α) (B : ℕ)
      (w : Fin B → g.Index → α) (b : Fin B),
      g.applyCostBT w b = g.applyCostT (w b) := by
  intro α _ g B w b
  exact applyCostBT_apply g w b

/-- Claim C9: the factored `apply_cost` performs `N * ∑ k, n k`
multiplications in total (each single-axis contraction costing `n k`
multiplications for each of the `N` output entries, `N` being the number of
multi-indices); for balanced axes (`n k = m` for all `k`) this is
`d * m ^ (d + 1)` with `N = m ^ d`, i.e. `d * N ^ (1 + 1/d)`; and on the
notebook grids `(5, 6, 7)` and `(37, 29, 43)` the count is strictly below
the `N ^ 2` multiplications of the naive dense application. -/
theorem claim_C9 :
    (∀ (g : Grid ℤ), Fintype.card g.Index = g.N) ∧
    (∀ (g : Grid ℤ), g.applyCostOps = g.N * ∑ k, g.size k) ∧
    (∀ (g : Grid ℤ) (m : ℕ), (∀ k, g.size k = m) →
        g.N = m ^ g.dim ∧ g.applyCostOps = g.dim * m ^ (g.dim + 1)) ∧
    g567.applyCostOps < g567.N ^ 2 ∧ gBig.applyCostOps < gBig.N ^ 2 := by
  refine ⟨fun g => card_index g, fun g => ?_, fun g m hm => ?_, by decide,
    by decide⟩
  · unfold Grid.applyCostOps Grid.contractAxisOps
    rw [Finset.mul_sum]
  · have hN : g.N = m ^ g.dim := by
      unfold Grid.N
      rw [Finset.prod_congr rfl fun k _ => hm k, Finset.prod_const,
        Finset.card_univ, Fintype.card_fin]
    refine ⟨hN, ?_⟩
    unfold Grid.applyCostOps Grid.contractAxisOps
    rw [Finset.sum_congr rfl fun k _ => by rw [hm k], Finset.sum_const,
      Finset.card_univ, Fintype.card_fin, smul_eq_mul, hN, pow_succ]

/-- Claim C9, witness: the balanced-axes instance on the concrete grid
`gBal` with two axes of three points each. -/
theorem claim_C9_witness :
    (∀ k, gBal.size k = 3) ∧
      (gBal.N = 3 ^ gBal.dim ∧
        gBal.applyCostOps = gBal.dim * 3 ^ (gBal.dim + 1)) :=
  ⟨by decide, claim_C9.2.2.1 gBal 3 (by decide)⟩

/-- Claim C10: a regular grid built from a shape tuple succeeds for
single-point axes (construction succeeds whenever the shape is nonempty,
every axis has at least one point and at most one cost function per axis is
given), and an axis of length one is assigned the single coordinate `0` —
computed as `j / max 1 (n k - 1)`, the guarded denominator avoiding the
division by zero. -/
theorem claim_C10 :
    (∀ (shape : List ℕ) (fns : List (CostFn ℚ)),
        shape ≠ [] → (∀ m ∈ shape, 1 ≤ m) → fns.length ≤ shape.length →
        (Grid.fromShape shape fns).isOk = true) ∧
    (∀ (shape : List ℕ) (fns : List (CostFn ℚ)) (g : Grid ℚ),
        Grid.fromShape shape fns = Except.ok g →
        ∀ (k : Fin g.dim), g.size k = 1 → ∀ j, g.coord k j = 0) := by
  constructor
  · intro shape fns hne hpos hlen
    unfold Grid.fromShape Grid.make
    split_ifs with h1 h2 h3
    · exfalso
      simp only [Grid.regularAxes, List.length_map] at h1
      exact hne (List.length_eq_zero.mp h1)
    · exfalso
      obtain ⟨a, ha, hlen0⟩ := h2
      simp only [Grid.regularAxes, List.mem_map] at ha
      obtain ⟨m, hm, rfl⟩ := ha
      simp only [List.length_map, List.length_range] at hlen0
      exact absurd (hpos m hm) (by omega)
    · exfalso
      simp only [Grid.regularAxes, List.length_map] at h3
      omega
    · rfl
  · intro shape fns g hg k hsz1 j
    unfold Grid.fromShape Grid.make at hg
    split_ifs at hg with h1 h2 h3
    rw [Except.ok.injEq] at hg
    subst hg
    have hk : (k : ℕ) < shape.length := by
      have h : (k : ℕ) < (Grid.regularAxes (α := ℚ) shape).length := k.isLt
      simp only [Grid.regularAxes, List.length_map] at h
      exact h
    have hsize : ((Grid.regularAxes (α := ℚ) shape).get k).length
        = shape.get ⟨k.val, hk⟩ := by
      simp only [Grid.regularAxes, List.get_eq_getElem, List.getElem_map,
        List.length_map, List.length_range]
    have hj0 : (j : ℕ) = 0 := by
      have h : (j : ℕ) < ((Grid.regularAxes (α := ℚ) shape).get k).length :=
        j.isLt
      have h1 : ((Grid.regularAxes (α := ℚ) shape).get k).length = 1 := hsz1
      omega
    show ((Grid.regularAxes (α := ℚ) shape).get k).get j = 0
    simp only [Grid.regularAxes, List.get_eq_getElem, List.getElem_map,
      List.getElem_range]
    rw [hj0]
    norm_num

/-- Claim C10, witness: construction from the shape `[2, 1]` (a single-point
second axis) succeeds, and on the concrete grid `g31` the single-point axis
carries the coordinate `0`. -/
theorem claim_C10_witness :
    (Grid.fromShape (α := ℚ) [2, 1] []).isOk = true ∧
      g31.coord k31 j31 = 0 :=
  ⟨claim_C10.1 [2, 1] [] (by decide) (by decide) (by decide),
    claim_C10.2 [3, 1] [] g31 rfl k31 (by decide) j31⟩

end SepGrid
